import Mathlib

/-!
Verification of the value-merging module of `keadm`
(`keadm/cmd/keadm/app/cmd/helm/values.go`).

The Go code merges helm-style configuration values: it loads YAML values
files, deep-merges them with `mergeMaps`, and then applies the five kinds
of `--set*` assignment expressions in a fixed order via the external
`helm.sh/helm/v3/pkg/strvals` package.

Shallow embedding conventions used throughout this file:
* A Go `map[string]interface{}` is modelled as an association list
  `List (String × Value)` with unique keys (Go maps cannot hold duplicate
  keys; lemmas that need this take a `Nodup` hypothesis on the key list).
  Go's nondeterministic map iteration order corresponds to the list order;
  determinism of the merge under reordering is proved separately.
* A YAML/JSON scalar is a `Value` leaf; nested documents are `Value.doc`.
* The ambient process state (standard input, the filesystem) and the
  external parsing libraries (`sigs.k8s.io/yaml`, the JSON fragment parser
  used by `strvals.ParseJSON`) are modelled as an explicit `Env` record of
  pure oracles.
* Go errors are strings; `errors.Wrap(err, msg)` renders as
  `msg ++ ": " ++ err` (the `pkg/errors` message format), and
  `errors.Errorf` builds a fresh message, discarding any underlying error.
-/
namespace Helm

/-- A helm values tree: scalar (string / integer / boolean / null), ordered
sequence, or nested document, mirroring the dynamic `interface{}` values
that `yaml.Unmarshal` produces in the Go code. -/
inductive Value : Type where
  | str : String → Value
  | num : Int → Value
  | bool : Bool → Value
  | null : Value
  | seq : List Value → Value
  | doc : List (String × Value) → Value

/-- A values document: the model of Go's `map[string]interface{}`. -/
abbrev Doc := List (String × Value)

/-- Keys of an association list (the key set of the modelled Go map). -/
def keys (l : List (String × α)) : List String :=
  l.map Prod.fst

/-- Association-list lookup: the model of the Go map read `m[k]`. -/
def alookup (k : String) : List (String × α) → Option α
  | [] => none
  | (k', v) :: rest => if k' = k then some v else alookup k rest

/-- Association-list update: the model of the Go map write `m[k] = v`.
Replaces the binding of `k` if present, otherwise appends it. -/
def upsert (k : String) (v : α) : List (String × α) → List (String × α)
  | [] => [(k, v)]
  | (k', v') :: rest => if k' = k then (k, v) :: rest else (k', v') :: upsert k v rest

/-- Boolean key-membership test on an association list. -/
def hasKey (k : String) : List (String × α) → Bool
  | [] => false
  | (k', _) :: rest => k' = k || hasKey k rest

/-- Deep merge of two values documents, translated from `mergeMaps` in
`values.go`: start from a copy of `a`, then for each entry `(k, v)` of `b`,
if `v` is a nested document and the accumulated map holds a nested document
at `k`, merge them recursively; otherwise `v` replaces whatever is at `k`. -/
def mergeMaps (a : Doc) (b : Doc) : Doc :=
  match b with
  | [] => a
  | (k, Value.doc m) :: rest =>
      (match alookup k a with
       | some (Value.doc am) => mergeMaps (upsert k (Value.doc (mergeMaps am m)) a) rest
       | _ => mergeMaps (upsert k (Value.doc m) a) rest)
  | (k, v) :: rest => mergeMaps (upsert k v a) rest
termination_by sizeOf b
decreasing_by all_goals (simp_wf <;> omega)

/-- The pointwise behaviour of `mergeMaps`, as a function on lookups:
absent in `b` keeps `a`'s binding, two nested documents merge recursively,
and otherwise `b`'s binding wins. -/
def mergeLook : Option Value → Option Value → Option Value
  | oa, none => oa
  | some (Value.doc am), some (Value.doc m) => some (Value.doc (mergeMaps am m))
  | _, some v => some v

mutual

/-- Well-formedness of a value as it arises from a Go `interface{}` tree:
every nested document has unique keys, since a Go map cannot bind the same
key twice. -/
def wfV : Value → Bool
  | Value.doc m => wfDoc m
  | _ => true

/-- Well-formedness of a document: unique keys at this level and
well-formed nested values. -/
def wfDoc : Doc → Bool
  | [] => true
  | (k, v) :: rest => !hasKey k rest && wfV v && wfDoc rest

end

/-- Modelled from the spec: Go `strings.TrimSpace` (standard library, not in
this repository) — whitespace test for the characters relevant here. -/
def isSpaceChar (c : Char) : Bool :=
  c = ' ' || c = '\t' || c = '\n' || c = '\r'

/-- Modelled from the spec: Go `strings.TrimSpace`, dropping leading and
trailing whitespace of a string. -/
def trimSpace (s : String) : String :=
  String.mk (((s.data.dropWhile isSpaceChar).reverse.dropWhile isSpaceChar).reverse)

/-- The environment of a run of `MergeValues`: the standard-input stream,
the filesystem, and the two external parsers (`sigs.k8s.io/yaml.Unmarshal`
into a map, and the JSON fragment parser that `strvals.ParseJSON` applies
to the right-hand side), all outside this repository and modelled as pure
oracles. -/
structure Env where
  stdin : Except String String
  fs : String → Except String String
  yaml : String → Except String Doc
  json : String → Except String Value

/-- `readFile` from `values.go`: a path that trims to `-` means the whole
standard-input stream; any other path is read from the local filesystem. -/
def readFile (env : Env) (filePath : String) : Except String String :=
  if trimSpace filePath = "-" then env.stdin else env.fs filePath

/-- `Options` from `values.go`: the different ways to specify values. -/
structure Options where
  ValueFiles : List String
  StringValues : List String
  Values : List String
  FileValues : List String
  JSONValues : List String
  LiteralValues : List String

def splitCharAux (c : Char) : List Char → List Char → List (List Char)
  | [], acc => [acc.reverse]
  | x :: rest, acc =>
      if x = c then acc.reverse :: splitCharAux c rest []
      else splitCharAux c rest (x :: acc)

/-- Split a string at every occurrence of the character `c`. -/
def splitChar (c : Char) (s : String) : List String :=
  (splitCharAux c s.data []).map String.mk

def splitFirstEqAux : List Char → List Char → Option (String × String)
  | [], _ => none
  | c :: rest, acc =>
      if c = '=' then some (String.mk acc.reverse, String.mk rest)
      else splitFirstEqAux rest (c :: acc)

/-- Split an assignment at its first `=`, into name and raw value; `none`
when the string holds no `=`. -/
def splitFirstEq (s : String) : Option (String × String) :=
  splitFirstEqAux s.data []

def natOfDigitsAux : List Char → Nat → Option Nat
  | [], acc => some acc
  | c :: rest, acc =>
      if '0' ≤ c && c ≤ '9' then natOfDigitsAux rest (acc * 10 + (c.toNat - '0'.toNat))
      else none

def natOfDigits (l : List Char) : Option Nat :=
  if l.isEmpty then none else natOfDigitsAux l 0

/-- Integer literal recognition for value type inference. -/
def intOfString (s : String) : Option Int :=
  match s.data with
  | '-' :: rest => (natOfDigits rest).map (fun n => -(n : Int))
  | l => (natOfDigits l).map (fun n => (n : Int))

/-- Modelled from the spec: type inference of `strvals` for a plain `--set`
value — number, boolean, null, otherwise string (`strvals` is an external
helm package, not part of this repository). -/
def inferValue (s : String) : Value :=
  if s = "true" then Value.bool true
  else if s = "false" then Value.bool false
  else if s = "null" then Value.null
  else
    match intOfString s with
    | some n => Value.num n
    | none => Value.str s

def quoteStr (s : String) : String :=
  "\"" ++ s ++ "\""

/-- Modelled from the spec: the dotted-path assignment of `strvals` (an
external helm package, not in this repository). Assigning through a path
creates intermediate nested documents as needed; meeting an existing
non-document value in the middle of the path is a fatal error. Array
indices and backslash escapes, which the spec leaves to the external
package's grammar, are not modelled. -/
def setPath : List String → Value → Doc → Except String Doc
  | [], _, _ => Except.error "empty path"
  | [k], v, d => Except.ok (upsert k v d)
  | k :: seg :: rest, v, d =>
      match alookup k d with
      | some (Value.doc sub) =>
          (setPath (seg :: rest) v sub).map (fun sub' => upsert k (Value.doc sub') d)
      | some _ =>
          Except.error ("cannot overwrite non-table value at key " ++ quoteStr k)
      | none =>
          (setPath (seg :: rest) v []).map (fun sub' => upsert k (Value.doc sub') d)

/-- Modelled from the spec: one `name=value` assignment, with the value
interpreted by `interp`; a fragment with no `=` is an error naming the
fragment, after the message shape of `strvals`. -/
def parseAssign (interp : String → Value) (frag : String) (d : Doc) :
    Except String Doc :=
  match splitFirstEq frag with
  | none => Except.error ("key " ++ quoteStr frag ++ " has no value")
  | some (p, raw) => setPath (splitChar '.' p) (interp raw) d

/-- Modelled from the spec: `strvals.ParseInto` — comma-separated plain
assignments with type inference on each value. -/
def parseInto (s : String) (d : Doc) : Except String Doc :=
  (splitChar ',' s).foldlM (fun d frag => parseAssign inferValue frag d) d

/-- Modelled from the spec: `strvals.ParseIntoString` — comma-separated
assignments whose values are always taken as strings. -/
def parseIntoString (s : String) (d : Doc) : Except String Doc :=
  (splitChar ',' s).foldlM (fun d frag => parseAssign Value.str frag d) d

/-- Modelled from the spec: `strvals.ParseIntoFile` — assignments whose
right-hand side names a file (or the standard-input sentinel) whose full
text contents become the value; a failing read propagates its error. -/
def parseIntoFile (env : Env) (s : String) (d : Doc) : Except String Doc :=
  (splitChar ',' s).foldlM (fun d frag =>
    match splitFirstEq frag with
    | none => Except.error ("key " ++ quoteStr frag ++ " has no value")
    | some (p, fp) => do
        let content ← readFile env fp
        setPath (splitChar '.' p) (Value.str content) d) d

/-- Modelled from the spec: `strvals.ParseLiteralInto` — a single
assignment whose entire right-hand side after the first `=` is one literal
string, with no comma splitting and no type inference. -/
def parseLiteralInto (s : String) (d : Doc) : Except String Doc :=
  match splitFirstEq s with
  | none => Except.error ("key " ++ quoteStr s ++ " has no value")
  | some (p, raw) => setPath (splitChar '.' p) (Value.str raw) d

/-- Modelled from the spec: `strvals.ParseJSON` — a dotted-path assignment
whose right-hand side is a JSON literal or object fragment, parsed by the
external JSON parser (an `Env` oracle) and merged in at the path. -/
def parseJSON (env : Env) (s : String) (d : Doc) : Except String Doc :=
  match splitFirstEq s with
  | none => Except.error ("key " ++ quoteStr s ++ " has no value")
  | some (p, frag) => do
      let v ← env.json frag
      setPath (splitChar '.' p) v d

/-- `Options.MergeValues` from `values.go`: merge the values files in
order with `mergeMaps`, then apply `--set-json`, `--set`, `--set-string`,
`--set-file` and `--set-literal` expressions, failing on the first error.
Error messages mirror the Go code: the YAML wrap names the file, the
`--set-json` branch builds a fresh message from the expression
(`errors.Errorf`), and the remaining branches wrap the underlying error
behind a constant message (`errors.Wrap`). -/
def Options.MergeValues (opts : Options) (env : Env) : Except String Doc := do
  let base ← opts.ValueFiles.foldlM (fun base filePath => do
      let bytes ← readFile env filePath
      match env.yaml bytes with
      | Except.ok currentMap => pure (mergeMaps base currentMap)
      | Except.error e =>
          Except.error ("failed to parse " ++ filePath ++ ": " ++ e)) ([] : Doc)
  let base ← opts.JSONValues.foldlM (fun base value =>
      match parseJSON env value base with
      | Except.ok b => pure b
      | Except.error _ =>
          Except.error ("failed parsing --set-json data " ++ value)) base
  let base ← opts.Values.foldlM (fun base value =>
      match parseInto value base with
      | Except.ok b => pure b
      | Except.error e =>
          Except.error ("failed parsing --set data: " ++ e)) base
  let base ← opts.StringValues.foldlM (fun base value =>
      match parseIntoString value base with
      | Except.ok b => pure b
      | Except.error e =>
          Except.error ("failed parsing --set-string data: " ++ e)) base
  let base ← opts.FileValues.foldlM (fun base value =>
      match parseIntoFile env value base with
      | Except.ok b => pure b
      | Except.error e =>
          Except.error ("failed parsing --set-file data: " ++ e)) base
  let base ← opts.LiteralValues.foldlM (fun base value =>
      match parseLiteralInto value base with
      | Except.ok b => pure b
      | Except.error e =>
          Except.error ("failed parsing --set-literal data: " ++ e)) base
  pure base

/-- One processing step of `MergeValues`: a values file or one assignment
expression of one of the five kinds. -/
inductive Step : Type where
  | file : String → Step
  | json : String → Step
  | set : String → Step
  | setString : String → Step
  | setFile : String → Step
  | setLiteral : String → Step

/-- The effect of one `MergeValues` step on the accumulated document; each
arm is the corresponding loop body of `Options.MergeValues`. -/
def runStep (env : Env) (base : Doc) : Step → Except String Doc
  | Step.file filePath => do
      let bytes ← readFile env filePath
      match env.yaml bytes with
      | Except.ok currentMap => pure (mergeMaps base currentMap)
      | Except.error e =>
          Except.error ("failed to parse " ++ filePath ++ ": " ++ e)
  | Step.json value =>
      match parseJSON env value base with
      | Except.ok b => pure b
      | Except.error _ =>
          Except.error ("failed parsing --set-json data " ++ value)
  | Step.set value =>
      match parseInto value base with
      | Except.ok b => pure b
      | Except.error e =>
          Except.error ("failed parsing --set data: " ++ e)
  | Step.setString value =>
      match parseIntoString value base with
      | Except.ok b => pure b
      | Except.error e =>
          Except.error ("failed parsing --set-string data: " ++ e)
  | Step.setFile value =>
      match parseIntoFile env value base with
      | Except.ok b => pure b
      | Except.error e =>
          Except.error ("failed parsing --set-file data: " ++ e)
  | Step.setLiteral value =>
      match parseLiteralInto value base with
      | Except.ok b => pure b
      | Except.error e =>
          Except.error ("failed parsing --set-literal data: " ++ e)

/-- The full step sequence of a `MergeValues` run, in the processing order
fixed by the Go code: all values files first, then the `--set-json`,
`--set`, `--set-string`, `--set-file` and `--set-literal` expressions. -/
def steps (opts : Options) : List Step :=
  opts.ValueFiles.map Step.file ++ opts.JSONValues.map Step.json
    ++ opts.Values.map Step.set ++ opts.StringValues.map Step.setString
    ++ opts.FileValues.map Step.setFile
    ++ opts.LiteralValues.map Step.setLiteral

/-- Whether the first list starts the second list. -/
def isPre : List Char → List Char → Bool
  | [], _ => true
  | _ :: _, [] => false
  | a :: as, b :: bs => a = b && isPre as bs

/-- Whether the first list occurs contiguously inside the second list. -/
def containsSub (n : List Char) : List Char → Bool
  | [] => n.isEmpty
  | c :: rest => isPre n (c :: rest) || containsSub n rest

/-- Whether `needle` occurs as a contiguous substring of `hay`; used to
state which data an error message identifies. -/
def strContains (needle hay : String) : Bool :=
  containsSub needle.data hay.data

/-- A Go runtime value as stored on the heap, for the aliasing model of
`mergeMaps`: a scalar, a slice, or a pointer to a map cell. In Go a
`map[string]interface{}` value is a reference; `mergeMaps` receives two
such references and writes only to the fresh map it allocates. -/
inductive GVal : Type where
  | prim : String → GVal
  | arr : List GVal → GVal
  | ref : Nat → GVal

/-- The contents of one heap-allocated Go map. -/
abbrev GMap := List (String × GVal)

/-- The heap: map cells addressed by allocation index; allocation appends
a cell at the end. -/
abbrev Heap := List GMap

mutual

/-- `mergeMaps` over the explicit heap model: read the two map cells,
build the output map from a copy of `a` updated by `b`'s entries
(recursing through `goEntries` where both sides hold map references), and
allocate the result as a fresh cell. The fuel bounds recursion depth,
since the heap could in principle hold reference cycles. -/
def mergeMapsH : Nat → Heap → Nat → Nat → Option (Heap × Nat)
  | 0, _, _, _ => none
  | fuel + 1, h, ra, rb =>
      match h.get? ra, h.get? rb with
      | some a, some b =>
          match goEntries fuel h a b with
          | some (h1, out) => some (h1 ++ [out], h1.length)
          | none => none
      | _, _ => none
termination_by fuel _ _ _ => (fuel, 0)

/-- The loop of `mergeMaps` over the entries of `b` in the heap model:
a map-typed value meeting a map-typed value in the output merges
recursively; any other value overwrites the output binding. -/
def goEntries : Nat → Heap → GMap → GMap → Option (Heap × GMap)
  | _, h, out, [] => some (h, out)
  | fuel, h, out, (k, GVal.ref rv) :: rest =>
      (match alookup k out with
       | some (GVal.ref rout) =>
           match mergeMapsH fuel h rout rv with
           | some (h1, r1) => goEntries fuel h1 (upsert k (GVal.ref r1) out) rest
           | none => none
       | _ => goEntries fuel h (upsert k (GVal.ref rv) out) rest)
  | fuel, h, out, (k, v) :: rest => goEntries fuel h (upsert k v out) rest
termination_by fuel _ _ b => (fuel, b.length + 1)

end

theorem alookup_upsert_self (k : String) (v : α) (l : List (String × α)) :
    alookup k (upsert k v l) = some v := by
  induction l with
  | nil => simp [upsert, alookup]
  | cons hd tl ih =>
      obtain ⟨k', v'⟩ := hd
      by_cases h : k' = k <;> simp [upsert, alookup, h, ih]

theorem alookup_upsert_other {k k' : String} (h : k' ≠ k) (v : α)
    (l : List (String × α)) : alookup k (upsert k' v l) = alookup k l := by
  induction l with
  | nil => simp [upsert, alookup, h]
  | cons hd tl ih =>
      obtain ⟨k'', v''⟩ := hd
      by_cases h2 : k'' = k'
      · subst h2
        simp [upsert, alookup, h]
      · by_cases h3 : k'' = k <;> simp [upsert, alookup, h2, h3, ih, Ne.symm h]

theorem alookup_eq_none_iff (k : String) (l : List (String × α)) :
    alookup k l = none ↔ k ∉ keys l := by
  induction l with
  | nil => simp [alookup, keys]
  | cons hd tl ih =>
      obtain ⟨k', v'⟩ := hd
      by_cases h : k' = k
      · subst h
        simp [alookup, keys]
      · simp [alookup, keys, h, ih, Ne.symm h]

theorem mem_of_alookup_eq_some {k : String} {v : α} {l : List (String × α)}
    (h : alookup k l = some v) : (k, v) ∈ l := by
  induction l with
  | nil => simp [alookup] at h
  | cons hd tl ih =>
      obtain ⟨k', v'⟩ := hd
      by_cases h2 : k' = k
      · subst h2
        simp [alookup] at h
        simp [h]
      · simp [alookup, h2] at h
        exact List.mem_cons_of_mem _ (ih h)

theorem alookup_eq_some_of_mem {k : String} {v : α} {l : List (String × α)}
    (hn : (keys l).Nodup) (h : (k, v) ∈ l) : alookup k l = some v := by
  induction l with
  | nil => simp at h
  | cons hd tl ih =>
      obtain ⟨k', v'⟩ := hd
      have hn' : k' ∉ List.map Prod.fst tl ∧ (List.map Prod.fst tl).Nodup := by
        simpa only [keys, List.map_cons, List.nodup_cons] using hn
      rcases List.mem_cons.mp h with h | h
      · rw [Prod.mk.injEq] at h
        obtain ⟨h1, h2⟩ := h
        subst h1
        subst h2
        simp [alookup]
      · have hk : k' ≠ k := by
          intro he
          subst he
          exact hn'.1 (List.mem_map.mpr ⟨(k', v), h, rfl⟩)
        simp [alookup, hk, ih hn'.2 h]

theorem alookup_cons_self (k : String) (v : α) (rest : List (String × α)) :
    alookup k ((k, v) :: rest) = some v := by
  simp [alookup]

theorem mergeLook_none (oa : Option Value) : mergeLook oa none = oa := by
  cases oa with
  | none => rfl
  | some v => cases v <;> rfl

theorem mergeLook_some_of_not_doc (oa : Option Value) (v : Value)
    (hv : ∀ m, v ≠ Value.doc m) : mergeLook oa (some v) = some v := by
  cases oa with
  | none => cases v <;> rfl
  | some va => cases va <;> cases v <;> first | rfl | exact absurd rfl (hv _)

theorem mergeLook_doc_of_not_doc (oa : Option Value) (m : Doc)
    (ha : ∀ am, oa ≠ some (Value.doc am)) :
    mergeLook oa (some (Value.doc m)) = some (Value.doc m) := by
  cases oa with
  | none => rfl
  | some va => cases va <;> first | rfl | exact absurd rfl (ha _)

theorem mergeLook_doc_doc (am m : Doc) :
    mergeLook (some (Value.doc am)) (some (Value.doc m))
      = some (Value.doc (mergeMaps am m)) := rfl

theorem alookup_mergeMaps_of_not_mem {k : String} (b : Doc) :
    ∀ a : Doc, k ∉ keys b → alookup k (mergeMaps a b) = alookup k a := by
  induction b with
  | nil =>
      intro a _
      rw [mergeMaps]
  | cons hd rest ih =>
      obtain ⟨k1, v1⟩ := hd
      intro a h
      have h' : k ∉ k1 :: keys rest := h
      have hk : k1 ≠ k := by
        intro he
        subst he
        exact h' (List.mem_cons_self _ _)
      have hrest : k ∉ keys rest := fun hm => h' (List.mem_cons_of_mem _ hm)
      rw [mergeMaps.eq_def]
      cases v1 with
      | doc m =>
          cases hl : alookup k1 a with
          | none => simp [hl, ih _ hrest, alookup_upsert_other hk]
          | some va =>
              cases va <;>
                simp [hl, ih _ hrest, alookup_upsert_other hk]
      | str s => simp [ih _ hrest, alookup_upsert_other hk]
      | num n => simp [ih _ hrest, alookup_upsert_other hk]
      | bool bv => simp [ih _ hrest, alookup_upsert_other hk]
      | null => simp [ih _ hrest, alookup_upsert_other hk]
      | seq l => simp [ih _ hrest, alookup_upsert_other hk]

theorem mergeMaps_nil (a : Doc) : mergeMaps a [] = a := by
  rw [mergeMaps]

theorem mergeMaps_cons_not_doc (a : Doc) (k1 : String) (v : Value) (rest : Doc)
    (hv : ∀ m, v ≠ Value.doc m) :
    mergeMaps a ((k1, v) :: rest) = mergeMaps (upsert k1 v a) rest := by
  rw [mergeMaps]
  exact fun m h => hv m h

theorem mergeMaps_cons_doc_doc (a : Doc) (k1 : String) (m rest am : Doc)
    (h : alookup k1 a = some (Value.doc am)) :
    mergeMaps a ((k1, Value.doc m) :: rest)
      = mergeMaps (upsert k1 (Value.doc (mergeMaps am m)) a) rest := by
  rw [mergeMaps.eq_def]
  simp [h]

theorem mergeMaps_cons_doc_other (a : Doc) (k1 : String) (m rest : Doc)
    (h : ∀ am, alookup k1 a ≠ some (Value.doc am)) :
    mergeMaps a ((k1, Value.doc m) :: rest)
      = mergeMaps (upsert k1 (Value.doc m) a) rest := by
  rw [mergeMaps.eq_def]
  cases hl : alookup k1 a with
  | none => simp [hl]
  | some va =>
      cases va
      case doc am => exact absurd hl (h am)
      all_goals simp [hl]

/-- Pointwise characterization of the deep merge: for maps with unique keys
(as Go maps are), the binding of any key in `mergeMaps a b` is determined by
the bindings in `a` and `b` via `mergeLook`. -/
theorem alookup_mergeMaps (b : Doc) (hb : (keys b).Nodup) :
    ∀ (a : Doc) (k : String),
      alookup k (mergeMaps a b) = mergeLook (alookup k a) (alookup k b) := by
  induction b with
  | nil =>
      intro a k
      simp [mergeMaps_nil, alookup, mergeLook_none]
  | cons hd rest ih =>
      obtain ⟨k1, v1⟩ := hd
      have hb' : k1 ∉ List.map Prod.fst rest ∧ (List.map Prod.fst rest).Nodup := by
        simpa only [keys, List.map_cons, List.nodup_cons] using hb
      have hrest : (keys rest).Nodup := hb'.2
      intro a k
      by_cases hkk : k1 = k
      · subst hkk
        have hknr : alookup k1 rest = none :=
          (alookup_eq_none_iff k1 rest).mpr hb'.1
        cases v1 with
        | doc m =>
            cases hl : alookup k1 a with
            | some va =>
                cases va with
                | doc am =>
                    rw [mergeMaps_cons_doc_doc a k1 m rest am hl,
                      alookup_mergeMaps_of_not_mem rest _
                        ((alookup_eq_none_iff k1 rest).mp hknr),
                      alookup_upsert_self]
                    simp [alookup, hl, mergeLook_doc_doc]
                | str s =>
                    rw [mergeMaps_cons_doc_other a k1 m rest (by simp [hl]),
                      alookup_mergeMaps_of_not_mem rest _
                        ((alookup_eq_none_iff k1 rest).mp hknr),
                      alookup_upsert_self]
                    simp [alookup, hl, mergeLook]
                | num n =>
                    rw [mergeMaps_cons_doc_other a k1 m rest (by simp [hl]),
                      alookup_mergeMaps_of_not_mem rest _
                        ((alookup_eq_none_iff k1 rest).mp hknr),
                      alookup_upsert_self]
                    simp [alookup, hl, mergeLook]
                | bool bv =>
                    rw [mergeMaps_cons_doc_other a k1 m rest (by simp [hl]),
                      alookup_mergeMaps_of_not_mem rest _
                        ((alookup_eq_none_iff k1 rest).mp hknr),
                      alookup_upsert_self]
                    simp [alookup, hl, mergeLook]
                | null =>
                    rw [mergeMaps_cons_doc_other a k1 m rest (by simp [hl]),
                      alookup_mergeMaps_of_not_mem rest _
                        ((alookup_eq_none_iff k1 rest).mp hknr),
                      alookup_upsert_self]
                    simp [alookup, hl, mergeLook]
                | seq l =>
                    rw [mergeMaps_cons_doc_other a k1 m rest (by simp [hl]),
                      alookup_mergeMaps_of_not_mem rest _
                        ((alookup_eq_none_iff k1 rest).mp hknr),
                      alookup_upsert_self]
                    simp [alookup, hl, mergeLook]
            | none =>
                rw [mergeMaps_cons_doc_other a k1 m rest (by simp [hl]),
                  alookup_mergeMaps_of_not_mem rest _
                    ((alookup_eq_none_iff k1 rest).mp hknr),
                  alookup_upsert_self]
                simp [alookup, hl, mergeLook]
        | str s =>
            rw [mergeMaps_cons_not_doc a k1 _ rest (by intro m h; cases h),
              alookup_mergeMaps_of_not_mem rest _
                ((alookup_eq_none_iff k1 rest).mp hknr),
              alookup_upsert_self]
            rw [alookup_cons_self, mergeLook_some_of_not_doc _ _ (by intro m h; cases h)]
        | num n =>
            rw [mergeMaps_cons_not_doc a k1 _ rest (by intro m h; cases h),
              alookup_mergeMaps_of_not_mem rest _
                ((alookup_eq_none_iff k1 rest).mp hknr),
              alookup_upsert_self]
            rw [alookup_cons_self, mergeLook_some_of_not_doc _ _ (by intro m h; cases h)]
        | bool bv =>
            rw [mergeMaps_cons_not_doc a k1 _ rest (by intro m h; cases h),
              alookup_mergeMaps_of_not_mem rest _
                ((alookup_eq_none_iff k1 rest).mp hknr),
              alookup_upsert_self]
            rw [alookup_cons_self, mergeLook_some_of_not_doc _ _ (by intro m h; cases h)]
        | null =>
            rw [mergeMaps_cons_not_doc a k1 _ rest (by intro m h; cases h),
              alookup_mergeMaps_of_not_mem rest _
                ((alookup_eq_none_iff k1 rest).mp hknr),
              alookup_upsert_self]
            rw [alookup_cons_self, mergeLook_some_of_not_doc _ _ (by intro m h; cases h)]
        | seq l =>
            rw [mergeMaps_cons_not_doc a k1 _ rest (by intro m h; cases h),
              alookup_mergeMaps_of_not_mem rest _
                ((alookup_eq_none_iff k1 rest).mp hknr),
              alookup_upsert_self]
            rw [alookup_cons_self, mergeLook_some_of_not_doc _ _ (by intro m h; cases h)]
      · have halo : ∀ x : Value, alookup k (upsert k1 x a) = alookup k a :=
          fun x => alookup_upsert_other hkk x a
        have hcons : alookup k ((k1, v1) :: rest) = alookup k rest := by
          simp [alookup, hkk]
        cases v1 with
        | doc m =>
            cases hl : alookup k1 a with
            | some va =>
                cases va with
                | doc am =>
                    rw [mergeMaps_cons_doc_doc a k1 m rest am hl, ih hrest, halo, hcons]
                | str s =>
                    rw [mergeMaps_cons_doc_other a k1 m rest (by simp [hl]),
                      ih hrest, halo, hcons]
                | num n =>
                    rw [mergeMaps_cons_doc_other a k1 m rest (by simp [hl]),
                      ih hrest, halo, hcons]
                | bool bv =>
                    rw [mergeMaps_cons_doc_other a k1 m rest (by simp [hl]),
                      ih hrest, halo, hcons]
                | null =>
                    rw [mergeMaps_cons_doc_other a k1 m rest (by simp [hl]),
                      ih hrest, halo, hcons]
                | seq l =>
                    rw [mergeMaps_cons_doc_other a k1 m rest (by simp [hl]),
                      ih hrest, halo, hcons]
            | none =>
                rw [mergeMaps_cons_doc_other a k1 m rest (by simp [hl]),
                  ih hrest, halo, hcons]
        | str s =>
            rw [mergeMaps_cons_not_doc a k1 _ rest (by intro m h; cases h),
              ih hrest, halo, hcons]
        | num n =>
            rw [mergeMaps_cons_not_doc a k1 _ rest (by intro m h; cases h),
              ih hrest, halo, hcons]
        | bool bv =>
            rw [mergeMaps_cons_not_doc a k1 _ rest (by intro m h; cases h),
              ih hrest, halo, hcons]
        | null =>
            rw [mergeMaps_cons_not_doc a k1 _ rest (by intro m h; cases h),
              ih hrest, halo, hcons]
        | seq l =>
            rw [mergeMaps_cons_not_doc a k1 _ rest (by intro m h; cases h),
              ih hrest, halo, hcons]

theorem upsert_of_not_mem {k : String} {l : List (String × α)}
    (h : k ∉ keys l) (v : α) : upsert k v l = l ++ [(k, v)] := by
  induction l with
  | nil => simp [upsert]
  | cons hd tl ih =>
      obtain ⟨k', v'⟩ := hd
      have h' : k ∉ k' :: keys tl := h
      have hk : k' ≠ k := by
        intro he
        subst he
        exact h' (List.mem_cons_self _ _)
      have htl : k ∉ keys tl := fun hm => h' (List.mem_cons_of_mem _ hm)
      simp [upsert, hk, ih htl]

theorem upsert_of_alookup_eq {k : String} {v : α} {l : List (String × α)}
    (h : alookup k l = some v) : upsert k v l = l := by
  induction l with
  | nil => simp [alookup] at h
  | cons hd tl ih =>
      obtain ⟨k', v'⟩ := hd
      by_cases hk : k' = k
      · subst hk
        rw [alookup_cons_self] at h
        cases h
        simp [upsert]
      · rw [alookup, if_neg hk] at h
        simp [upsert, hk, ih h]

theorem mergeMaps_append (b : Doc) :
    ∀ acc : Doc, (keys b).Nodup → (∀ k, k ∈ keys b → k ∉ keys acc) →
      mergeMaps acc b = acc ++ b := by
  induction b with
  | nil =>
      intro acc _ _
      simp [mergeMaps_nil]
  | cons hd rest ih =>
      obtain ⟨k1, v1⟩ := hd
      intro acc hnb hdisj
      have hnb' : k1 ∉ List.map Prod.fst rest ∧ (List.map Prod.fst rest).Nodup := by
        simpa only [keys, List.map_cons, List.nodup_cons] using hnb
      have hk1 : k1 ∉ keys acc := hdisj k1 (List.mem_cons_self _ _)
      have hdisj' : ∀ k, k ∈ keys rest → k ∉ keys (acc ++ [(k1, v1)]) := by
        intro k hkr hmem
        have hkc : k ∈ keys acc ++ [k1] := by
          simpa [keys] using hmem
        rcases List.mem_append.mp hkc with hx | hx
        · exact hdisj k (List.mem_cons_of_mem _ hkr) hx
        · have hk : k = k1 := by simpa using hx
          subst hk
          exact hnb'.1 hkr
      have hstep : ∀ v : Value, upsert k1 v acc = acc ++ [(k1, v)] :=
        fun v => upsert_of_not_mem hk1 v
      cases v1 with
      | doc m =>
          have hl : alookup k1 acc = none := (alookup_eq_none_iff k1 acc).mpr hk1
          rw [mergeMaps_cons_doc_other acc k1 m rest (by simp [hl]), hstep,
            ih _ hnb'.2 hdisj']
          simp
      | str s =>
          rw [mergeMaps_cons_not_doc acc k1 _ rest (by intro m h; cases h), hstep,
            ih _ hnb'.2 hdisj']
          simp
      | num n =>
          rw [mergeMaps_cons_not_doc acc k1 _ rest (by intro m h; cases h), hstep,
            ih _ hnb'.2 hdisj']
          simp
      | bool bv =>
          rw [mergeMaps_cons_not_doc acc k1 _ rest (by intro m h; cases h), hstep,
            ih _ hnb'.2 hdisj']
          simp
      | null =>
          rw [mergeMaps_cons_not_doc acc k1 _ rest (by intro m h; cases h), hstep,
            ih _ hnb'.2 hdisj']
          simp
      | seq l =>
          rw [mergeMaps_cons_not_doc acc k1 _ rest (by intro m h; cases h), hstep,
            ih _ hnb'.2 hdisj']
          simp

theorem hasKey_eq_false_iff (k : String) (l : List (String × α)) :
    hasKey k l = false ↔ k ∉ keys l := by
  induction l with
  | nil => simp [hasKey, keys]
  | cons hd tl ih =>
      obtain ⟨k', v'⟩ := hd
      by_cases h : k' = k
      · subst h
        simp [hasKey, keys]
      · simp [hasKey, keys, h, ih, Ne.symm h]

theorem nodup_keys_of_wfDoc : ∀ l : Doc, wfDoc l = true → (keys l).Nodup := by
  intro l
  induction l with
  | nil => simp [keys]
  | cons hd tl ih =>
      obtain ⟨k, v⟩ := hd
      intro hwf
      rw [wfDoc] at hwf
      simp only [Bool.and_eq_true, Bool.not_eq_true'] at hwf
      have hmem : k ∉ keys tl := (hasKey_eq_false_iff k tl).mp hwf.1.1
      have htl : (keys tl).Nodup := ih hwf.2
      simpa only [keys, List.map_cons, List.nodup_cons] using ⟨hmem, htl⟩

theorem wfV_of_mem : ∀ {l : Doc} {k : String} {v : Value},
    wfDoc l = true → (k, v) ∈ l → wfV v = true := by
  intro l
  induction l with
  | nil => intro k v _ h; simp at h
  | cons hd tl ih =>
      obtain ⟨k', v'⟩ := hd
      intro k v hwf hmem
      rw [wfDoc] at hwf
      simp only [Bool.and_eq_true] at hwf
      rcases List.mem_cons.mp hmem with h | h
      · rw [Prod.mk.injEq] at h
        rw [h.2]
        exact hwf.1.2
      · exact ih hwf.2 h

theorem mergeMaps_self_general (b : Doc) :
    ∀ acc : Doc,
      (∀ p : String × Value, p ∈ b → alookup p.1 acc = some p.2) →
      (∀ p : String × Value, p ∈ b → ∀ m, p.2 = Value.doc m → mergeMaps m m = m) →
      mergeMaps acc b = acc := by
  induction b with
  | nil =>
      intro acc _ _
      rw [mergeMaps_nil]
  | cons hd rest ih =>
      obtain ⟨k1, v1⟩ := hd
      intro acc hmem hidem
      have h1 : alookup k1 acc = some v1 := hmem (k1, v1) (List.mem_cons_self _ _)
      have hrest := fun p hp => hmem p (List.mem_cons_of_mem _ hp)
      have hrest' := fun p hp => hidem p (List.mem_cons_of_mem _ hp)
      cases v1 with
      | doc m =>
          have hmm : mergeMaps m m = m :=
            hidem (k1, Value.doc m) (List.mem_cons_self _ _) m rfl
          rw [mergeMaps_cons_doc_doc acc k1 m rest m h1, hmm,
            upsert_of_alookup_eq h1]
          exact ih acc hrest hrest'
      | str s =>
          rw [mergeMaps_cons_not_doc acc k1 _ rest (by intro m h; cases h),
            upsert_of_alookup_eq h1]
          exact ih acc hrest hrest'
      | num n =>
          rw [mergeMaps_cons_not_doc acc k1 _ rest (by intro m h; cases h),
            upsert_of_alookup_eq h1]
          exact ih acc hrest hrest'
      | bool bv =>
          rw [mergeMaps_cons_not_doc acc k1 _ rest (by intro m h; cases h),
            upsert_of_alookup_eq h1]
          exact ih acc hrest hrest'
      | null =>
          rw [mergeMaps_cons_not_doc acc k1 _ rest (by intro m h; cases h),
            upsert_of_alookup_eq h1]
          exact ih acc hrest hrest'
      | seq l =>
          rw [mergeMaps_cons_not_doc acc k1 _ rest (by intro m h; cases h),
            upsert_of_alookup_eq h1]
          exact ih acc hrest hrest'

theorem mergeMaps_self_aux :
    ∀ (n : Nat) (a : Doc), sizeOf a ≤ n → wfDoc a = true → mergeMaps a a = a := by
  intro n
  induction n with
  | zero =>
      intro a hs _
      cases a with
      | nil => rw [mergeMaps_nil]
      | cons hd tl => simp at hs
  | succ n ihn =>
      intro a hs hwf
      apply mergeMaps_self_general
      · intro p hp
        exact alookup_eq_some_of_mem (nodup_keys_of_wfDoc a hwf) hp
      · intro p hp m hpm
        obtain ⟨k, v⟩ := p
        have h1 : sizeOf (k, v) < sizeOf a := List.sizeOf_lt_of_mem hp
        have hwfv : wfV v = true := wfV_of_mem hwf hp
        subst hpm
        apply ihn
        · simp only [Prod.mk.sizeOf_spec, Value.doc.sizeOf_spec] at h1
          omega
        · simpa [wfV] using hwfv

theorem alookup_eq_of_perm {l l' : List (String × α)} (h : List.Perm l' l)
    (hn : (keys l).Nodup) (k : String) : alookup k l' = alookup k l := by
  have hn' : (keys l').Nodup := ((h.map Prod.fst).nodup_iff).mpr hn
  cases hl : alookup k l with
  | some v =>
      exact alookup_eq_some_of_mem hn' (h.mem_iff.mpr (mem_of_alookup_eq_some hl))
  | none =>
      rw [alookup_eq_none_iff] at hl ⊢
      exact fun hk => hl ((h.map Prod.fst).mem_iff.mp hk)

theorem exceptFoldlM_append (l1 l2 : List α) (f : β → α → Except ε β) (b : β) :
    (l1 ++ l2).foldlM f b = (l1.foldlM f b) >>= fun x => l2.foldlM f x := by
  induction l1 generalizing b with
  | nil => simp
  | cons hd tl ih =>
      simp only [List.cons_append, List.foldlM_cons, ih, bind_assoc]

theorem exceptFoldlM_map (g : α → γ) (l : List α) (f : β → γ → Except ε β) (b : β) :
    (l.map g).foldlM f b = l.foldlM (fun x y => f x (g y)) b := by
  induction l generalizing b with
  | nil => simp
  | cons hd tl ih =>
      simp only [List.map_cons, List.foldlM_cons, ih]

theorem exceptFoldlM_error (l : List α) (f : β → α → Except ε β) (e : ε) :
    (Except.error e : Except ε β) >>= (fun x => l.foldlM f x) = Except.error e := rfl

/-- `MergeValues` is the left fold of `runStep` over its step sequence. -/
theorem MergeValues_eq_foldlM_steps (opts : Options) (env : Env) :
    opts.MergeValues env = (steps opts).foldlM (runStep env) ([] : Doc) := by
  rw [steps]
  rw [exceptFoldlM_append, exceptFoldlM_append, exceptFoldlM_append,
    exceptFoldlM_append, exceptFoldlM_append]
  simp only [exceptFoldlM_map]
  unfold Options.MergeValues
  simp only [bind_pure, bind_assoc]
  rfl

theorem isPre_self_append (n t : List Char) : isPre n (n ++ t) = true := by
  induction n with
  | nil => rfl
  | cons c cs ih => simp [isPre, ih]

theorem containsSub_self_append (n t : List Char) :
    containsSub n (n ++ t) = true := by
  cases n with
  | nil =>
      cases t with
      | nil => rfl
      | cons c cs => simp [containsSub, isPre]
  | cons c cs => simp [containsSub, isPre, isPre_self_append]

theorem containsSub_cons_of (n : List Char) (c : Char) (rest : List Char)
    (h : containsSub n rest = true) : containsSub n (c :: rest) = true := by
  simp [containsSub, h]

theorem strContains_of_middle (x a b : String) :
    strContains x (a ++ x ++ b) = true := by
  rw [strContains]
  have hd : (a ++ x ++ b).data = a.data ++ (x.data ++ b.data) := by
    simp [String.data_append]
  rw [hd]
  induction a.data with
  | nil => simpa using containsSub_self_append x.data b.data
  | cons c cs ih => exact containsSub_cons_of _ c _ ih

theorem alookup_upsert_isSome (k k1 : String) (v : α) (l : List (String × α)) :
    (alookup k (upsert k1 v l)).isSome
      = (decide (k1 = k) || (alookup k l).isSome) := by
  by_cases h : k1 = k
  · subst h
    simp [alookup_upsert_self]
  · simp [alookup_upsert_other h, h]

theorem hasKey_eq_isSome (k : String) (l : List (String × α)) :
    hasKey k l = (alookup k l).isSome := by
  induction l with
  | nil => simp [hasKey, alookup]
  | cons hd tl ih =>
      obtain ⟨k', v'⟩ := hd
      by_cases h : k' = k <;> simp [hasKey, alookup, h, ih]

theorem goEntries_frame (fuel : Nat)
    (hP : ∀ h ra rb h' r', mergeMapsH fuel h ra rb = some (h', r') →
      ∃ ext, h' = h ++ ext) :
    ∀ (b : GMap) (h : Heap) (out : GMap) (h1 : Heap) (out1 : GMap),
      goEntries fuel h out b = some (h1, out1) →
      (∃ ext, h1 = h ++ ext) ∧
        ∀ k, (alookup k out1).isSome = ((alookup k out).isSome || hasKey k b) := by
  intro b
  induction b with
  | nil =>
      intro h out h1 out1 hrun
      rw [goEntries] at hrun
      cases hrun
      exact ⟨⟨[], by simp⟩, fun k => by simp [hasKey]⟩
  | cons hd rest ih =>
      obtain ⟨k1, v1⟩ := hd
      intro h out h1 out1 hrun
      cases v1 with
      | ref rv =>
          rw [goEntries] at hrun
          cases ho : alookup k1 out with
          | some w =>
              cases w with
              | ref rout =>
                  simp only [ho] at hrun
                  cases hm : mergeMapsH fuel h rout rv with
                  | some pr =>
                      obtain ⟨h2, r2⟩ := pr
                      simp only [hm] at hrun
                      obtain ⟨⟨ext2, hext2⟩, hkeys⟩ := ih _ _ _ _ hrun
                      obtain ⟨ext1, hext1⟩ := hP h rout rv h2 r2 hm
                      refine ⟨⟨ext1 ++ ext2, ?_⟩, ?_⟩
                      · rw [hext2, hext1, List.append_assoc]
                      · intro k
                        rw [hkeys k, alookup_upsert_isSome]
                        simp [hasKey, Bool.or_assoc, Bool.or_comm, Bool.or_left_comm]
                  | none =>
                      simp only [hm] at hrun
                      cases hrun
              | prim s =>
                  simp only [ho] at hrun
                  obtain ⟨hext, hkeys⟩ := ih _ _ _ _ hrun
                  refine ⟨hext, ?_⟩
                  intro k
                  rw [hkeys k, alookup_upsert_isSome]
                  simp [hasKey, Bool.or_assoc, Bool.or_comm, Bool.or_left_comm]
              | arr l =>
                  simp only [ho] at hrun
                  obtain ⟨hext, hkeys⟩ := ih _ _ _ _ hrun
                  refine ⟨hext, ?_⟩
                  intro k
                  rw [hkeys k, alookup_upsert_isSome]
                  simp [hasKey, Bool.or_assoc, Bool.or_comm, Bool.or_left_comm]
          | none =>
              simp only [ho] at hrun
              obtain ⟨hext, hkeys⟩ := ih _ _ _ _ hrun
              refine ⟨hext, ?_⟩
              intro k
              rw [hkeys k, alookup_upsert_isSome]
              simp [hasKey, Bool.or_assoc, Bool.or_comm, Bool.or_left_comm]
      | prim s =>
          simp only [goEntries] at hrun
          obtain ⟨hext, hkeys⟩ := ih _ _ _ _ hrun
          refine ⟨hext, ?_⟩
          intro k
          rw [hkeys k, alookup_upsert_isSome]
          simp [hasKey, Bool.or_assoc, Bool.or_comm, Bool.or_left_comm]
      | arr l =>
          simp only [goEntries] at hrun
          obtain ⟨hext, hkeys⟩ := ih _ _ _ _ hrun
          refine ⟨hext, ?_⟩
          intro k
          rw [hkeys k, alookup_upsert_isSome]
          simp [hasKey, Bool.or_assoc, Bool.or_comm, Bool.or_left_comm]

theorem mergeMapsH_ext :
    ∀ (fuel : Nat) (h : Heap) (ra rb : Nat) (h' : Heap) (r' : Nat),
      mergeMapsH fuel h ra rb = some (h', r') → ∃ ext, h' = h ++ ext := by
  intro fuel
  induction fuel with
  | zero =>
      intro h ra rb h' r' hrun
      rw [mergeMapsH] at hrun
      cases hrun
  | succ n ih =>
      intro h ra rb h' r' hrun
      rw [mergeMapsH] at hrun
      cases hga : h.get? ra with
      | none =>
          simp only [hga] at hrun
          cases hrun
      | some a =>
          simp only [hga] at hrun
          cases hgb : h.get? rb with
          | none =>
              simp only [hgb] at hrun
              cases hrun
          | some b =>
              simp only [hgb] at hrun
              cases hgo : goEntries n h a b with
              | none =>
                  simp only [hgo] at hrun
                  cases hrun
              | some pr =>
                  obtain ⟨h1, out⟩ := pr
                  simp only [hgo] at hrun
                  cases hrun
                  obtain ⟨⟨ext1, hext1⟩, _⟩ := goEntries_frame n ih b h a h1 out hgo
                  exact ⟨ext1 ++ [out], by rw [hext1, List.append_assoc]⟩

theorem mergeLook_none_left (ob : Option Value) : mergeLook none ob = ob := by
  cases ob with
  | none => rfl
  | some v => cases v <;> rfl

/-- C1: for every pair of values documents `a` (existing) and `b`
(incoming), with unique keys in `b` as Go maps guarantee, the deep merge
keeps `a`'s binding on keys only in `a`, takes `b`'s binding on keys only
in `b`, recursively merges two nested documents bound to the same key, and
otherwise lets `b`'s value fully replace `a`'s — including a scalar or
sequence replacing a nested document and vice versa. -/
theorem mergeMaps_pointwise (a b : Doc) (k : String) (hb : (keys b).Nodup) :
    (alookup k b = none → alookup k (mergeMaps a b) = alookup k a) ∧
    (alookup k a = none → alookup k (mergeMaps a b) = alookup k b) ∧
    (∀ am m, alookup k a = some (Value.doc am) →
      alookup k b = some (Value.doc m) →
      alookup k (mergeMaps a b) = some (Value.doc (mergeMaps am m))) ∧
    (∀ va vb, alookup k a = some va → alookup k b = some vb →
      ¬(∃ am m, va = Value.doc am ∧ vb = Value.doc m) →
      alookup k (mergeMaps a b) = some vb) := by
  have hchar := alookup_mergeMaps b hb a k
  refine ⟨?_, ?_, ?_, ?_⟩
  · intro h
    rw [hchar, h, mergeLook_none]
  · intro h
    rw [hchar, h, mergeLook_none_left]
  · intro am m ha2 hb2
    rw [hchar, ha2, hb2, mergeLook_doc_doc]
  · intro va vb ha2 hb2 hnd
    rw [hchar, ha2, hb2]
    cases vb with
    | doc m =>
        exact mergeLook_doc_of_not_doc (some va) m
          (fun am hx => hnd ⟨am, m, Option.some.inj hx, rfl⟩)
    | str s => exact mergeLook_some_of_not_doc _ _ (by intro m hx; cases hx)
    | num n => exact mergeLook_some_of_not_doc _ _ (by intro m hx; cases hx)
    | bool bv => exact mergeLook_some_of_not_doc _ _ (by intro m hx; cases hx)
    | null => exact mergeLook_some_of_not_doc _ _ (by intro m hx; cases hx)
    | seq l => exact mergeLook_some_of_not_doc _ _ (by intro m hx; cases hx)

/-- C1 witness: merging `{a: 1}` with `{a: 5}` rebinds `a` to `5` (the
incoming scalar replaces the existing one). -/
theorem mergeMaps_pointwise_witness :
    alookup "a" (mergeMaps [("a", Value.num 1)] [("a", Value.num 5)])
      = some (Value.num 5) :=
  (mergeMaps_pointwise [("a", Value.num 1)] [("a", Value.num 5)] "a"
      (by decide)).2.2.2 (Value.num 1) (Value.num 5) rfl rfl
    (by rintro ⟨am, m, hx, _⟩; cases hx)

/-- C2: `MergeValues` processes all values files first and then the five
assignment kinds in the fixed order `--set-json`, `--set`, `--set-string`,
`--set-file`, `--set-literal` (its step sequence, lowest priority first);
in particular a plain `a=1` followed by a string-forced `a=1` leaves `a`
bound to the string `"1"`, not the number `1`. -/
theorem MergeValues_priority :
    (∀ (opts : Options) (env : Env),
      opts.MergeValues env = (steps opts).foldlM (runStep env) ([] : Doc)) ∧
    (∀ env : Env,
      Options.MergeValues ⟨[], ["a=1"], ["a=1"], [], [], []⟩ env
        = Except.ok [("a", Value.str "1")]) :=
  ⟨fun opts env => MergeValues_eq_foldlM_steps opts env, fun _ => rfl⟩

/-- C3: `MergeValues` is fail-fast — when every step before some step of
its step sequence succeeds and that step fails, the call returns exactly
that step's error, whatever steps follow (`post` is arbitrary, so no later
file or expression is processed into the outcome), and no document is
returned alongside the error. -/
theorem MergeValues_failFast (opts : Options) (env : Env)
    (pre post : List Step) (s : Step) (acc : Doc) (e : String)
    (hsteps : steps opts = pre ++ s :: post)
    (hpre : pre.foldlM (runStep env) ([] : Doc) = Except.ok acc)
    (hs : runStep env acc s = Except.error e) :
    opts.MergeValues env = Except.error e := by
  rw [MergeValues_eq_foldlM_steps, hsteps, exceptFoldlM_append, hpre]
  show (s :: post).foldlM (runStep env) acc = Except.error e
  rw [List.foldlM_cons, hs]
  rfl

/-- C3 witness: with a failing `--set x=1,y` and a later `--set-string`
expression present, `MergeValues` returns the `--set` parse error. -/
theorem MergeValues_failFast_witness :
    Options.MergeValues ⟨[], ["q=1"], ["x=1,y"], [], [], []⟩
        ⟨Except.error "stdin closed", fun _ => Except.error "no such file",
          fun _ => Except.error "unused", fun _ => Except.error "unused"⟩
      = Except.error "failed parsing --set data: key \"y\" has no value" :=
  MergeValues_failFast ⟨[], ["q=1"], ["x=1,y"], [], [], []⟩
    ⟨Except.error "stdin closed", fun _ => Except.error "no such file",
      fun _ => Except.error "unused", fun _ => Except.error "unused"⟩
    [] [Step.setString "q=1"] (Step.set "x=1,y") []
    "failed parsing --set data: key \"y\" has no value" rfl rfl rfl

/-- C4 counterexample: the `--set` expression `x=1,y` fails to parse, yet
the error `MergeValues` returns does not contain the raw expression — the
Go code wraps `--set` parse failures behind the constant message
`failed parsing --set data`, unlike `--set-json`, which embeds the
expression. -/
theorem setError_missing_raw_expression :
    Options.MergeValues ⟨[], [], ["x=1,y"], [], [], []⟩
        ⟨Except.error "stdin closed", fun _ => Except.error "no such file",
          fun _ => Except.error "unused", fun _ => Except.error "unused"⟩
      = Except.error "failed parsing --set data: key \"y\" has no value" ∧
    strContains "x=1,y" "failed parsing --set data: key \"y\" has no value"
      = false :=
  ⟨rfl, rfl⟩

/-- C4 (amended): a values-file parse failure is reported with an error
naming the offending file path, and a `--set-json` parse failure with an
error naming the raw expression; the remaining assignment kinds only name
the expression kind, wrapping the underlying parser error, which need not
contain the raw expression. -/
theorem parse_error_identifies (env : Env) (base : Doc) :
    (∀ p bs e, readFile env p = Except.ok bs → env.yaml bs = Except.error e →
      ∃ msg, runStep env base (Step.file p) = Except.error msg ∧
        strContains p msg = true) ∧
    (∀ v e, parseJSON env v base = Except.error e →
      ∃ msg, runStep env base (Step.json v) = Except.error msg ∧
        strContains v msg = true) := by
  constructor
  · intro p bs e h1 h2
    refine ⟨"failed to parse " ++ p ++ ": " ++ e, ?_, ?_⟩
    · rw [show runStep env base (Step.file p)
          = (readFile env p >>= fun bytes =>
              match env.yaml bytes with
              | Except.ok currentMap => pure (mergeMaps base currentMap)
              | Except.error e2 =>
                  Except.error ("failed to parse " ++ p ++ ": " ++ e2)) from rfl,
        h1]
      show (match env.yaml bs with
            | Except.ok currentMap => pure (mergeMaps base currentMap)
            | Except.error e2 =>
                Except.error ("failed to parse " ++ p ++ ": " ++ e2))
          = Except.error ("failed to parse " ++ p ++ ": " ++ e)
      rw [h2]
    · rw [String.append_assoc]
      exact strContains_of_middle p "failed to parse " (": " ++ e)
  · intro v e h
    refine ⟨"failed parsing --set-json data " ++ v, ?_, ?_⟩
    · simp only [runStep, h]
    · rw [show "failed parsing --set-json data " ++ v
          = "failed parsing --set-json data " ++ v ++ "" from
          (String.append_empty _).symm]
      exact strContains_of_middle v "failed parsing --set-json data " ""

/-- C4 witness: a malformed values file yields an error containing the
file path, and a malformed `--set-json` expression yields an error
containing the raw expression. -/
theorem parse_error_identifies_witness :
    (∃ msg, runStep
        ⟨Except.error "stdin closed", fun _ => Except.ok "a: [",
          fun _ => Except.error "mapping values are not allowed",
          fun _ => Except.error "bad json"⟩ [] (Step.file "vals.yaml")
      = Except.error msg ∧ strContains "vals.yaml" msg = true) ∧
    (∃ msg, runStep
        ⟨Except.error "stdin closed", fun _ => Except.ok "a: [",
          fun _ => Except.error "mapping values are not allowed",
          fun _ => Except.error "bad json"⟩ [] (Step.json "a=[")
      = Except.error msg ∧ strContains "a=[" msg = true) :=
  ⟨(parse_error_identifies
      ⟨Except.error "stdin closed", fun _ => Except.ok "a: [",
        fun _ => Except.error "mapping values are not allowed",
        fun _ => Except.error "bad json"⟩ []).1 "vals.yaml" "a: ["
      "mapping values are not allowed" rfl rfl,
    (parse_error_identifies
      ⟨Except.error "stdin closed", fun _ => Except.ok "a: [",
        fun _ => Except.error "mapping values are not allowed",
        fun _ => Except.error "bad json"⟩ []).2 "a=[" "bad json" rfl⟩

/-- C5 counterexample: a `--set-json` parse failure is reported through a
fresh error built with `errors.Errorf`; the underlying JSON parser error
is discarded and does not occur in the returned message. -/
theorem jsonError_discards_cause :
    Options.MergeValues ⟨[], [], [], [], ["a=["], []⟩
        ⟨Except.error "stdin closed", fun _ => Except.error "no such file",
          fun _ => Except.error "unused", fun _ => Except.error "bad json"⟩
      = Except.error "failed parsing --set-json data a=[" ∧
    strContains "bad json" "failed parsing --set-json data a=[" = false :=
  ⟨rfl, rfl⟩

theorem strContains_self_suffix (x a : String) : strContains x (a ++ x) = true := by
  rw [show a ++ x = a ++ x ++ "" from (String.append_empty _).symm]
  exact strContains_of_middle x a ""

/-- C5 (amended): every underlying read or parse error except the
`--set-json` one is preserved in what `MergeValues` returns — a failing
file read is returned verbatim, and the parse errors of values files,
`--set`, `--set-string`, `--set-file` and `--set-literal` are wrapped with
the underlying message kept inside; the `--set-json` branch alone discards
its underlying error (see the counterexample). -/
theorem wrap_preserves_cause (env : Env) (base : Doc) :
    (∀ p e, readFile env p = Except.error e →
      runStep env base (Step.file p) = Except.error e) ∧
    (∀ p bs e, readFile env p = Except.ok bs → env.yaml bs = Except.error e →
      ∃ msg, runStep env base (Step.file p) = Except.error msg ∧
        strContains e msg = true) ∧
    (∀ v e, parseInto v base = Except.error e →
      ∃ msg, runStep env base (Step.set v) = Except.error msg ∧
        strContains e msg = true) ∧
    (∀ v e, parseIntoString v base = Except.error e →
      ∃ msg, runStep env base (Step.setString v) = Except.error msg ∧
        strContains e msg = true) ∧
    (∀ v e, parseIntoFile env v base = Except.error e →
      ∃ msg, runStep env base (Step.setFile v) = Except.error msg ∧
        strContains e msg = true) ∧
    (∀ v e, parseLiteralInto v base = Except.error e →
      ∃ msg, runStep env base (Step.setLiteral v) = Except.error msg ∧
        strContains e msg = true) := by
  refine ⟨?_, ?_, ?_, ?_, ?_, ?_⟩
  · intro p e h
    have hh : runStep env base (Step.file p)
        = (readFile env p >>= fun bytes =>
            match env.yaml bytes with
            | Except.ok currentMap => pure (mergeMaps base currentMap)
            | Except.error e2 =>
                Except.error ("failed to parse " ++ p ++ ": " ++ e2)) := rfl
    rw [hh, h]
    rfl
  · intro p bs e h1 h2
    refine ⟨"failed to parse " ++ p ++ ": " ++ e, ?_, ?_⟩
    · have hh : runStep env base (Step.file p)
          = (readFile env p >>= fun bytes =>
              match env.yaml bytes with
              | Except.ok currentMap => pure (mergeMaps base currentMap)
              | Except.error e2 =>
                  Except.error ("failed to parse " ++ p ++ ": " ++ e2)) := rfl
      rw [hh, h1]
      show (match env.yaml bs with
            | Except.ok currentMap => pure (mergeMaps base currentMap)
            | Except.error e2 =>
                Except.error ("failed to parse " ++ p ++ ": " ++ e2))
          = Except.error ("failed to parse " ++ p ++ ": " ++ e)
      rw [h2]
    · exact strContains_self_suffix e ("failed to parse " ++ p ++ ": ")
  · intro v e h
    refine ⟨"failed parsing --set data: " ++ e, ?_, ?_⟩
    · simp only [runStep, h]
    · exact strContains_self_suffix e "failed parsing --set data: "
  · intro v e h
    refine ⟨"failed parsing --set-string data: " ++ e, ?_, ?_⟩
    · simp only [runStep, h]
    · exact strContains_self_suffix e "failed parsing --set-string data: "
  · intro v e h
    refine ⟨"failed parsing --set-file data: " ++ e, ?_, ?_⟩
    · simp only [runStep, h]
    · exact strContains_self_suffix e "failed parsing --set-file data: "
  · intro v e h
    refine ⟨"failed parsing --set-literal data: " ++ e, ?_, ?_⟩
    · simp only [runStep, h]
    · exact strContains_self_suffix e "failed parsing --set-literal data: "

/-- C5 witness: a failing file read is returned verbatim, and a `--set`
parse failure is wrapped with the underlying `strvals` message inside. -/
theorem wrap_preserves_cause_witness :
    runStep ⟨Except.error "stdin closed", fun _ => Except.error "no such file",
        fun _ => Except.error "unused", fun _ => Except.error "unused"⟩ []
        (Step.file "missing.yaml")
      = Except.error "no such file" ∧
    (∃ msg, runStep
        ⟨Except.error "stdin closed", fun _ => Except.error "no such file",
          fun _ => Except.error "unused", fun _ => Except.error "unused"⟩ []
        (Step.set "x=1,y")
      = Except.error msg ∧ strContains "key \"y\" has no value" msg = true) :=
  ⟨(wrap_preserves_cause
      ⟨Except.error "stdin closed", fun _ => Except.error "no such file",
        fun _ => Except.error "unused", fun _ => Except.error "unused"⟩ []).1
      "missing.yaml" "no such file" rfl,
    (wrap_preserves_cause
      ⟨Except.error "stdin closed", fun _ => Except.error "no such file",
        fun _ => Except.error "unused", fun _ => Except.error "unused"⟩ []).2.2.1
      "x=1,y" "key \"y\" has no value" rfl⟩

/-- C6: a file reference whose path trims to `-` reads the full
standard-input stream, and its result does not depend on the filesystem
oracle at all (no filesystem open is attempted); any other path is read in
full from the filesystem and does not depend on standard input. `readFile`
is the reader used both for values files and for `--set-file` right-hand
sides in `MergeValues`. -/
theorem readFile_stdin_sentinel (env env' : Env) (p : String) :
    (trimSpace p = "-" →
      readFile env p = env.stdin ∧
        (env.stdin = env'.stdin → readFile env p = readFile env' p)) ∧
    (trimSpace p ≠ "-" →
      readFile env p = env.fs p ∧
        (env.fs = env'.fs → readFile env p = readFile env' p)) := by
  constructor
  · intro h
    constructor
    · rw [readFile, if_pos h]
    · intro hs
      rw [readFile, readFile, if_pos h, if_pos h, hs]
  · intro h
    constructor
    · rw [readFile, if_neg h]
    · intro hs
      rw [readFile, readFile, if_neg h, if_neg h, hs]

/-- C6 witness: the path `" - "` reads standard input under two
environments with different filesystems, and the path `vals.yaml` reads
the filesystem under two environments with different standard inputs. -/
theorem readFile_stdin_sentinel_witness :
    readFile ⟨Except.ok "stdin doc", fun _ => Except.error "fs one",
        fun _ => Except.error "u", fun _ => Except.error "u"⟩ " - "
      = Except.ok "stdin doc" ∧
    readFile ⟨Except.ok "stdin doc", fun _ => Except.error "fs one",
        fun _ => Except.error "u", fun _ => Except.error "u"⟩ " - "
      = readFile ⟨Except.ok "stdin doc", fun _ => Except.error "fs two",
          fun _ => Except.error "u", fun _ => Except.error "u"⟩ " - " ∧
    readFile ⟨Except.ok "stdin one", fun _ => Except.ok "file doc",
        fun _ => Except.error "u", fun _ => Except.error "u"⟩ "vals.yaml"
      = Except.ok "file doc" ∧
    readFile ⟨Except.ok "stdin one", fun _ => Except.ok "file doc",
        fun _ => Except.error "u", fun _ => Except.error "u"⟩ "vals.yaml"
      = readFile ⟨Except.ok "stdin two", fun _ => Except.ok "file doc",
          fun _ => Except.error "u", fun _ => Except.error "u"⟩ "vals.yaml" :=
  ⟨((readFile_stdin_sentinel
      ⟨Except.ok "stdin doc", fun _ => Except.error "fs one",
        fun _ => Except.error "u", fun _ => Except.error "u"⟩
      ⟨Except.ok "stdin doc", fun _ => Except.error "fs two",
        fun _ => Except.error "u", fun _ => Except.error "u"⟩ " - ").1 rfl).1,
    ((readFile_stdin_sentinel
      ⟨Except.ok "stdin doc", fun _ => Except.error "fs one",
        fun _ => Except.error "u", fun _ => Except.error "u"⟩
      ⟨Except.ok "stdin doc", fun _ => Except.error "fs two",
        fun _ => Except.error "u", fun _ => Except.error "u"⟩ " - ").1 rfl).2 rfl,
    ((readFile_stdin_sentinel
      ⟨Except.ok "stdin one", fun _ => Except.ok "file doc",
        fun _ => Except.error "u", fun _ => Except.error "u"⟩
      ⟨Except.ok "stdin two", fun _ => Except.ok "file doc",
        fun _ => Except.error "u", fun _ => Except.error "u"⟩ "vals.yaml").2
      (by decide)).1,
    ((readFile_stdin_sentinel
      ⟨Except.ok "stdin one", fun _ => Except.ok "file doc",
        fun _ => Except.error "u", fun _ => Except.error "u"⟩
      ⟨Except.ok "stdin two", fun _ => Except.ok "file doc",
        fun _ => Except.error "u", fun _ => Except.error "u"⟩ "vals.yaml").2
      (by decide)).2 rfl⟩

/-- C7: the merge does not depend on map iteration order — permuting the
entry order of either input (the model of Go's nondeterministic map
iteration) changes no binding of `mergeMaps`'s result; with the embedding a
pure function of its inputs, two runs over the same options and file
contents therefore agree. -/
theorem mergeMaps_deterministic (a a' b b' : Doc)
    (ha : List.Perm a' a) (hb : List.Perm b' b)
    (hna : (keys a).Nodup) (hnb : (keys b).Nodup) (k : String) :
    alookup k (mergeMaps a' b') = alookup k (mergeMaps a b) := by
  have hnb' : (keys b').Nodup := ((hb.map Prod.fst).nodup_iff).mpr hnb
  rw [alookup_mergeMaps b hnb a k, alookup_mergeMaps b' hnb' a' k,
    alookup_eq_of_perm ha hna k, alookup_eq_of_perm hb hnb k]

/-- C7 witness: reversing the iteration order of the existing map leaves
the merged binding of `x` unchanged. -/
theorem mergeMaps_deterministic_witness :
    alookup "x" (mergeMaps [("y", Value.num 2), ("x", Value.num 1)]
        [("x", Value.num 5)])
      = alookup "x" (mergeMaps [("x", Value.num 1), ("y", Value.num 2)]
        [("x", Value.num 5)]) :=
  mergeMaps_deterministic [("x", Value.num 1), ("y", Value.num 2)]
    [("y", Value.num 2), ("x", Value.num 1)]
    [("x", Value.num 5)] [("x", Value.num 5)]
    (List.Perm.swap ("x", Value.num 1) ("y", Value.num 2) [])
    (List.Perm.refl _) (by decide) (by decide) "x"

/-- C8: the empty document is a two-sided identity of the deep merge:
`mergeMaps a [] = a` for every document `a`, and `mergeMaps [] b = b` for
every document `b` with unique keys, as Go maps guarantee. -/
theorem mergeMaps_identity (a b : Doc) (hb : (keys b).Nodup) :
    mergeMaps a [] = a ∧ mergeMaps [] b = b := by
  refine ⟨mergeMaps_nil a, ?_⟩
  have h := mergeMaps_append b [] hb (fun k _ hk => by simp [keys] at hk)
  simpa using h

/-- C8 witness: both identity laws at a one-entry document. -/
theorem mergeMaps_identity_witness :
    mergeMaps [("a", Value.num 1)] [] = [("a", Value.num 1)] ∧
      mergeMaps [] [("a", Value.num 1)] = [("a", Value.num 1)] :=
  mergeMaps_identity [("a", Value.num 1)] [("a", Value.num 1)] (by decide)

/-- C9: the deep merge is idempotent: merging a well-formed values
document (every nested document has unique keys, as Go maps do) with
itself returns it unchanged. -/
theorem mergeMaps_idem (a : Doc) (ha : wfDoc a = true) :
    mergeMaps a a = a :=
  mergeMaps_self_aux (sizeOf a) a le_rfl ha

/-- C9 witness: idempotence at a document with a nested document inside. -/
theorem mergeMaps_idem_witness :
    mergeMaps [("a", Value.doc [("x", Value.num 1)]), ("b", Value.num 2)]
        [("a", Value.doc [("x", Value.num 1)]), ("b", Value.num 2)]
      = [("a", Value.doc [("x", Value.num 1)]), ("b", Value.num 2)] :=
  mergeMaps_idem [("a", Value.doc [("x", Value.num 1)]), ("b", Value.num 2)]
    (by simp [wfDoc, wfV, hasKey])

/-- C10: in the heap model of `mergeMaps`, a successful run only extends
the heap: every pre-existing cell — both argument maps and every nested
map reachable from them — is unchanged, the returned map is a freshly
allocated cell, and its key set is exactly the union of the two inputs'
key sets. -/
theorem mergeMapsH_frame (fuel : Nat) (h h' : Heap) (ra rb r' : Nat)
    (hrun : mergeMapsH fuel h ra rb = some (h', r')) :
    (∃ ext, h' = h ++ ext) ∧ h.length ≤ r' ∧
      ∀ a b, h.get? ra = some a → h.get? rb = some b →
        ∃ out, h'.get? r' = some out ∧
          ∀ k, (alookup k out).isSome
            = ((alookup k a).isSome || (alookup k b).isSome) := by
  cases fuel with
  | zero =>
      rw [mergeMapsH] at hrun
      cases hrun
  | succ n =>
      rw [mergeMapsH] at hrun
      cases hga : h.get? ra with
      | none =>
          simp only [hga] at hrun
          cases hrun
      | some a0 =>
          simp only [hga] at hrun
          cases hgb : h.get? rb with
          | none =>
              simp only [hgb] at hrun
              cases hrun
          | some b0 =>
              simp only [hgb] at hrun
              cases hgo : goEntries n h a0 b0 with
              | none =>
                  simp only [hgo] at hrun
                  cases hrun
              | some pr =>
                  obtain ⟨h1, out⟩ := pr
                  simp only [hgo] at hrun
                  cases hrun
                  obtain ⟨⟨ext1, hext1⟩, hkeys⟩ :=
                    goEntries_frame n (mergeMapsH_ext n) b0 h a0 h1 out hgo
                  refine ⟨⟨ext1 ++ [out], by rw [hext1, List.append_assoc]⟩,
                    ?_, ?_⟩
                  · rw [hext1]
                    simp
                  · intro a b hga' hgb'
                    obtain rfl : a0 = a := Option.some.inj hga'
                    obtain rfl : b0 = b := Option.some.inj hgb'
                    refine ⟨out, ?_, ?_⟩
                    · exact List.get?_concat_length h1 out
                    · intro k
                      rw [hkeys k, hasKey_eq_isSome]

/-- C10 witness: merging the maps at cells 0 and 1 extends the two-cell
heap with one fresh cell holding the union of the keys. -/
theorem mergeMapsH_frame_witness :
    (∃ ext, [[("a", GVal.prim "1")], [("b", GVal.prim "2")],
        [("a", GVal.prim "1"), ("b", GVal.prim "2")]]
      = [[("a", GVal.prim "1")], [("b", GVal.prim "2")]] ++ ext) ∧
    ([[("a", GVal.prim "1")], [("b", GVal.prim "2")]] : Heap).length ≤ 2 ∧
    ∀ a b,
      ([[("a", GVal.prim "1")], [("b", GVal.prim "2")]] : Heap).get? 0
          = some a →
      ([[("a", GVal.prim "1")], [("b", GVal.prim "2")]] : Heap).get? 1
          = some b →
      ∃ out, ([[("a", GVal.prim "1")], [("b", GVal.prim "2")],
          [("a", GVal.prim "1"), ("b", GVal.prim "2")]] : Heap).get? 2
          = some out ∧
        ∀ k, (alookup k out).isSome
          = ((alookup k a).isSome || (alookup k b).isSome) :=
  mergeMapsH_frame 2 [[("a", GVal.prim "1")], [("b", GVal.prim "2")]]
    [[("a", GVal.prim "1")], [("b", GVal.prim "2")],
      [("a", GVal.prim "1"), ("b", GVal.prim "2")]] 0 1 2
    (by simp [mergeMapsH, goEntries, alookup, upsert])

end Helm
